import Mathlib

/-!
Verification development for the query-construction and hierarchy-storage
engine of the butterfoo backend (file queries.go).

The first half embeds the pipeline engine: the dynamic value maps, the
query context, the three pipeline stages (EnsureInputColsPipe,
PatchFilterPipe, BuildQueryPipe) and the driving loop QueryApply.  Go's
variadic stage calls are modelled by passing the list of supplied
arguments to each stage; a Go runtime panic (index out of range on an
empty argument slice or an empty pipe slice) is modelled by the
Outcome.panicked constructor.  The stage bodies are direct translations
of the Go loops, including their in-place mutation of the shared
QueryContext: a stage returns the context as mutated up to the point
where it returned, together with its error value.

The named-parameter compiler embeds the behaviour of the third-party
dependency sqlx.Named (compileNamedQuery with the QUESTION bind type
followed by bindMapArgs) on the byte strings the engine feeds it:
a colon starts a name made of letters, digits, underscore and dot,
a double colon escapes to a literal colon, a colon-equals passes
through, a colon met while reading a name is a parse error, and a
trailing lone colon is dropped.  fmt.Sprintf is embedded for format
strings whose only verbs are the percent-s placeholders it is actually
applied to (the catalog's update template has exactly one).

The second half embeds the DecksClosure table and the SQL statement of
ASSOCIATE_DECK_AS_CHILD_QUERY: the table is a list of rows in rowid
(insertion) order, unique on the (ancestor, descendent) primary key;
the INSERT OR IGNORE ... SELECT ... UNION ALL ... statement first
materialises the selected rows against the pre-statement table state
and then inserts them in order, skipping any row whose key is already
present.  The deck-creation trigger decks_closure_new_deck is embedded
by initTable.
-/

/-- Dynamic values as produced by JSON2Map: the engine treats them as
opaque. -/
inductive Value where
  | vStr : String → Value
  | vNum : Int → Value
  | vBool : Bool → Value
  | vNull : Value
deriving DecidableEq, Repr

/-- type StringMap map[string]interface... : a Go map, embedded as an
association list with unique keys; lookup is first-match. -/
abbrev StringMap := List (String × Value)

/-- Go map read m[k]. -/
def lookupKV : StringMap → String → Option Value
  | [], _ => none
  | (k', v') :: rest, k => if k' = k then some v' else lookupKV rest k

/-- Go map write m[k] = v: overwrites in place, or adds the key. -/
def insertKV : StringMap → String → Value → StringMap
  | [], k, v => [(k, v)]
  | (k', v') :: rest, k, v =>
    if k' = k then (k, v) :: rest else (k', v') :: insertKV rest k v

/-- The QueryContext struct: in-progress SQL text, named parameters,
and (after the build stage) positional arguments. -/
structure QueryContext where
  query : String
  nameArgs : StringMap
  args : List Value
deriving DecidableEq, Repr

/-- MakeCtxMaker baseQuery produces a fresh context per invocation:
query seeded with the template, empty name map, nil positional args. -/
def MakeCtxMaker (baseQuery : String) : QueryContext :=
  { query := baseQuery, nameArgs := [], args := [] }

/-- The error values the engine can return, carrying the same data as
the Go error strings. -/
inductive Err where
  /-- errors.New of missing required col plus the offending query. -/
  | missingColumn (col : String) (query : String)
  /-- errors.New of nothing patched. -/
  | nothingPatched
  /-- sqlx bindMapArgs: could not find name in the map. -/
  | bindMissingName (name : String)
  /-- sqlx compileNamedQuery: unexpected colon while reading a named param. -/
  | namedParseErr
deriving DecidableEq, Repr

/-- The body of the PipeInput returned by EnsureInputColsPipe: for each
required column in order, look it up in the input map; if absent,
return the error at once; otherwise copy it into the context's name
map and continue.  The returned context is the shared heap object as
mutated up to the point of return. -/
def EnsureInputColsPipe : List String → StringMap → QueryContext → QueryContext × Option Err
  | [], _, ctx => (ctx, none)
  | col :: rest, inputMap, ctx =>
    match lookupKV inputMap col with
    | none => (ctx, some (Err.missingColumn col ctx.query))
    | some v =>
      EnsureInputColsPipe rest inputMap { ctx with nameArgs := insertKV ctx.nameArgs col v }

/-- The scanning loop of PatchFilterPipe: for each whitelisted column
present in the patch map, copy its value into the name map, set the
patched flag, and append the "col = :col" fragment. -/
def patchLoop : List String → StringMap → QueryContext → List String → Bool →
    QueryContext × List String × Bool
  | [], _, ctx, frags, patched => (ctx, frags, patched)
  | col :: rest, patch, ctx, frags, patched =>
    match lookupKV patch col with
    | some v =>
      patchLoop rest patch { ctx with nameArgs := insertKV ctx.nameArgs col v }
        (frags ++ [col ++ " = :" ++ col]) true
    | none => patchLoop rest patch ctx frags patched

/-- Does the format string contain a percent-s verb. -/
def containsFmt : List Char → Bool
  | [] => false
  | '%' :: 's' :: _ => true
  | _ :: rest => containsFmt rest

/-- Substitution pass of fmt.Sprintf for percent-s verbs and a single
string argument: the first verb receives the argument, any later verb
renders as the MISSING marker. -/
def substFormatAux : List Char → List Char → Bool → List Char
  | [], _, _ => []
  | '%' :: 's' :: rest, repl, false => repl ++ substFormatAux rest repl true
  | '%' :: 's' :: rest, repl, true => "%!s(MISSING)".data ++ substFormatAux rest repl true
  | c :: rest, repl, used => c :: substFormatAux rest repl used

/-- fmt.Sprintf tmpl repl for templates whose only verbs are percent-s
(the catalog's update template has exactly one); with no verb at all Go
appends the EXTRA marker. -/
def substFormat (tmpl repl : String) : String :=
  if containsFmt tmpl.data then
    String.mk (substFormatAux tmpl.data repl.data false)
  else
    tmpl ++ "%!(EXTRA string=" ++ repl ++ ")"

/-- The body of the PipeInput returned by PatchFilterPipe: scan the
whitelist, fail with the nothing-patched error if no column matched,
otherwise splice the comma-joined fragments into the template's format
placeholder. -/
def PatchFilterPipe (whitelist : List String) (patch : StringMap) (ctx : QueryContext) :
    Except Err QueryContext :=
  match patchLoop whitelist patch ctx [] false with
  | (ctx', frags, patched) =>
    if patched then
      Except.ok { ctx' with query := substFormat ctx'.query (String.intercalate ", " frags) }
    else
      Except.error Err.nothingPatched

/-- The characters sqlx allows inside a bind-parameter name (letters,
digits, underscore, dot; the templates are ASCII). -/
def isNameChar (c : Char) : Bool :=
  c.isAlpha || c.isDigit || c == '_' || c == '.'

/-- sqlx compileNamedQuery with the question-mark bind type, as a state
machine over the characters: the second argument is none outside a
name and some acc while reading a name with accumulated characters
acc.  Output: the rebound query characters and the names in template
order. -/
def compileAux : List Char → Option (List Char) → Except Err (List Char × List String)
  | [], none => Except.ok ([], [])
  | [], some [] => Except.ok ([], [])
  | [], some name => Except.ok (['?'], [String.mk name])
  | c :: rest, none =>
    if c = ':' then compileAux rest (some [])
    else
      match compileAux rest none with
      | Except.error e => Except.error e
      | Except.ok (rb, ns) => Except.ok (c :: rb, ns)
  | c :: rest, some name =>
    if c = ':' then
      if name = [] then
        match compileAux rest none with
        | Except.error e => Except.error e
        | Except.ok (rb, ns) => Except.ok (':' :: rb, ns)
      else Except.error Err.namedParseErr
    else if c = '=' ∧ name = [] then
      match compileAux rest none with
      | Except.error e => Except.error e
      | Except.ok (rb, ns) => Except.ok (':' :: '=' :: rb, ns)
    else if isNameChar c then compileAux rest (some (name ++ [c]))
    else
      match compileAux rest none with
      | Except.error e => Except.error e
      | Except.ok (rb, ns) => Except.ok ('?' :: c :: rb, String.mk name :: ns)

/-- sqlx compileNamedQuery on a query string. -/
def compileNamed (q : String) : Except Err (List Char × List String) :=
  compileAux q.data none

/-- sqlx bindMapArgs: resolve each extracted name against the map, in
order, failing on the first name with no entry. -/
def bindMapArgs : List String → StringMap → Except Err (List Value)
  | [], _ => Except.ok []
  | n :: rest, m =>
    match lookupKV m n with
    | none => Except.error (Err.bindMissingName n)
    | some v =>
      match bindMapArgs rest m with
      | Except.error e => Except.error e
      | Except.ok vs => Except.ok (v :: vs)

/-- sqlx.Named: compile the query, then bind the names. -/
def sqlxNamed (q : String) (m : StringMap) : Except Err (String × List Value) :=
  match compileNamed q with
  | Except.error e => Except.error e
  | Except.ok (rb, names) =>
    match bindMapArgs names m with
    | Except.error e => Except.error e
    | Except.ok vs => Except.ok (String.mk rb, vs)

/-- The body of the PipeInput returned by BuildQueryPipe: run
sqlx.Named over the context's query and name map, then store the
rebound query and the positional arguments in the context. -/
def BuildQueryPipe (ctx : QueryContext) : Except Err QueryContext :=
  match sqlxNamed ctx.query ctx.nameArgs with
  | Except.error e => Except.error e
  | Except.ok (q, args) => Except.ok { ctx with query := q, args := args }

/-- The three stage constructors composed by the query catalog. -/
inductive Pipe where
  | ensureInputCols (required : List String)
  | patchFilter (whitelist : List String)
  | buildQuery
deriving DecidableEq, Repr

/-- The observable result of one QueryApply invocation: the returned
(query, args) pair, a returned error, or a Go runtime panic. -/
inductive Outcome where
  | ok (query : String) (args : List Value)
  | fail (e : Err)
  | panicked (msg : String)
deriving DecidableEq, Repr

/-- The message of the runtime panic raised by indexing an empty slice. -/
def indexOutOfRange : String := "runtime error: index out of range [0] with length 0"

/-- The loop of QueryApply over the remaining pipes: each iteration
passes at most one of the remaining input maps to the current stage.
An input-consuming stage indexes args[0], panicking when no map was
supplied, and after succeeding indexes pipes[0] of the remaining pipe
slice, panicking when it is the last stage; the build stage ignores
its arguments, returns no continuation and ends the loop. -/
def queryApplyLoop : List Pipe → List StringMap → QueryContext → Outcome
  | [], _, ctx => Outcome.ok ctx.query ctx.args
  | Pipe.ensureInputCols required :: rest, maps, ctx =>
    match maps with
    | [] => Outcome.panicked indexOutOfRange
    | m :: maps' =>
      match EnsureInputColsPipe required m ctx with
      | (_, some e) => Outcome.fail e
      | (ctx', none) =>
        match rest with
        | [] => Outcome.panicked indexOutOfRange
        | _ :: _ => queryApplyLoop rest maps' ctx'
  | Pipe.patchFilter whitelist :: rest, maps, ctx =>
    match maps with
    | [] => Outcome.panicked indexOutOfRange
    | m :: maps' =>
      match PatchFilterPipe whitelist m ctx with
      | Except.error e => Outcome.fail e
      | Except.ok ctx' =>
        match rest with
        | [] => Outcome.panicked indexOutOfRange
        | _ :: _ => queryApplyLoop rest maps' ctx'
  | Pipe.buildQuery :: _, _, ctx =>
    match BuildQueryPipe ctx with
    | Except.error e => Outcome.fail e
    | Except.ok ctx' => Outcome.ok ctx'.query ctx'.args

/-- QueryApply over a catalog pipeline: composePipes with no pipes is
the noop pipe and yields the empty result, otherwise the loop runs on
a fresh context. -/
def QueryApply (baseQuery : String) (pipes : List Pipe) (maps : List StringMap) : Outcome :=
  match pipes with
  | [] => Outcome.ok "" []
  | _ :: _ => queryApplyLoop pipes maps (MakeCtxMaker baseQuery)

/-- Number of input-consuming stages before the terminating build
stage: only their Value Maps can influence the outcome. -/
def inputStages : List Pipe → Nat
  | [] => 0
  | Pipe.buildQuery :: _ => 0
  | _ :: rest => inputStages rest + 1

/-! The query catalog: the concrete templates of queries.go and the
stage chain each composes. -/

/-- Template of FETCH_CONFIG_SETTING_QUERY. -/
def FETCH_CONFIG_SETTING_BASE : String :=
  "\n    SELECT setting, value FROM Config WHERE setting = :setting;\n    "

/-- Stage chain of FETCH_CONFIG_SETTING_QUERY. -/
def FETCH_CONFIG_SETTING_PIPES : List Pipe :=
  [Pipe.ensureInputCols ["setting"], Pipe.buildQuery]

/-- Template of SET_CONFIG_SETTING_QUERY. -/
def INSERT_CONFIG_SETTING_BASE : String :=
  "\n    INSERT OR REPLACE INTO Config(setting, value) VALUES (:setting, :value);\n    "

/-- Stage chain of SET_CONFIG_SETTING_QUERY. -/
def SET_CONFIG_SETTING_PIPES : List Pipe :=
  [Pipe.ensureInputCols ["setting", "value"], Pipe.buildQuery]

/-- Template of CREATE_NEW_DECK_QUERY. -/
def CREATE_NEW_DECK_BASE : String :=
  "\n    INSERT INTO Decks(name) VALUES (:name);\n    "

/-- Stage chain of CREATE_NEW_DECK_QUERY. -/
def CREATE_NEW_DECK_PIPES : List Pipe :=
  [Pipe.ensureInputCols ["name"], Pipe.buildQuery]

/-- Template of FETCH_DECK_QUERY. -/
def FETCH_DECK_BASE : String :=
  "\n    SELECT deck_id, name FROM Decks WHERE deck_id = :deck_id;\n    "

/-- Stage chain of FETCH_DECK_QUERY. -/
def FETCH_DECK_PIPES : List Pipe :=
  [Pipe.ensureInputCols ["deck_id"], Pipe.buildQuery]

/-- Template of UPDATE_DECK_QUERY, with the format placeholder the
patch stage fills. -/
def UPDATE_DECK_BASE : String :=
  "\n    UPDATE Decks\n    SET\n    %s\n    WHERE deck_id = :deck_id\n    "

/-- Stage chain of UPDATE_DECK_QUERY. -/
def UPDATE_DECK_PIPES : List Pipe :=
  [Pipe.ensureInputCols ["deck_id"], Pipe.patchFilter ["name"], Pipe.buildQuery]

/-- Template of ASSOCIATE_DECK_AS_CHILD_QUERY. -/
def ASSOCIATE_DECK_AS_CHILD_BASE : String :=
  "\n    INSERT OR IGNORE INTO DecksClosure(ancestor, descendent, depth)\n\n    SELECT t.ancestor, :child, t.depth+1\n    FROM DecksClosure AS t\n    WHERE t.descendent = :parent\n\n    UNION ALL\n\n    SELECT :child, :child, 0;\n    "

/-- Stage chain of ASSOCIATE_DECK_AS_CHILD_QUERY. -/
def ASSOCIATE_DECK_AS_CHILD_PIPES : List Pipe :=
  [Pipe.ensureInputCols ["parent", "child"], Pipe.buildQuery]

/-- Template of DECK_CHILDREN_QUERY. -/
def DECK_CHILDREN_BASE : String :=
  "\n    SELECT ancestor, descendent, depth\n    FROM DecksClosure\n    WHERE\n    ancestor = :parent\n    AND depth = 1;\n    "

/-- Stage chain of DECK_CHILDREN_QUERY. -/
def DECK_CHILDREN_PIPES : List Pipe :=
  [Pipe.ensureInputCols ["parent"], Pipe.buildQuery]

/-! The DecksClosure table and the associate-as-child statement. -/

/-- A row of DecksClosure. -/
structure Row where
  ancestor : Int
  descendent : Int
  depth : Int
deriving DecidableEq, Repr

/-- The DecksClosure table: rows in rowid (insertion) order.  The
primary key on (ancestor, descendent) keeps keys unique; keyNodup
states that. -/
abbrev Tbl := List Row

/-- Does the table hold a row with the given primary key. -/
def hasKey (T : Tbl) (a d : Int) : Bool :=
  T.any fun r => r.ancestor == a && r.descendent == d

/-- INSERT OR IGNORE of one row: skipped when its primary key is
already present. -/
def insertOrIgnore (T : Tbl) (r : Row) : Tbl :=
  if hasKey T r.ancestor r.descendent then T else T ++ [r]

/-- INSERT OR IGNORE of a list of rows, in order. -/
def insertAll (T : Tbl) (rows : List Row) : Tbl :=
  rows.foldl insertOrIgnore T

/-- The row set selected by the associate statement against the
pre-statement table: for every ancestor of parent a row making it an
ancestor of child one deeper, then the child self-row at depth 0. -/
def selectedRows (T : Tbl) (parent child : Int) : List Row :=
  (T.filter fun t => t.descendent == parent).map
      (fun t => { ancestor := t.ancestor, descendent := child, depth := t.depth + 1 })
    ++ [{ ancestor := child, descendent := child, depth := 0 }]

/-- ASSOCIATE_DECK_AS_CHILD_QUERY: materialise the selected rows, then
insert them with OR IGNORE. -/
def associateAsChild (T : Tbl) (parent child : Int) : Tbl :=
  insertAll T (selectedRows T parent child)

/-- The table produced by creating the decks of D in order: the
decks_closure_new_deck trigger inserts the self-row of each. -/
def initTable (D : List Int) : Tbl :=
  D.map fun d => { ancestor := d, descendent := d, depth := 0 }

/-- Run a list of associate-as-child calls in order. -/
def applyCalls (T : Tbl) (calls : List (Int × Int)) : Tbl :=
  calls.foldl (fun acc pc => associateAsChild acc pc.1 pc.2) T

/-- The primary-key constraint: no two rows share (ancestor, descendent). -/
def keyNodup (T : Tbl) : Prop :=
  (T.map fun r => (r.ancestor, r.descendent)).Nodup

/-- The trigger-maintained invariant: every deck id occurring in the
table has its depth-zero self-row. -/
def selfEdgeInv (T : Tbl) : Prop :=
  ∀ r ∈ T, ({ ancestor := r.ancestor, descendent := r.ancestor, depth := 0 } : Row) ∈ T ∧
    ({ ancestor := r.descendent, descendent := r.descendent, depth := 0 } : Row) ∈ T

instance (T : Tbl) : Decidable (selfEdgeInv T) := by
  unfold selfEdgeInv
  infer_instance

instance (T : Tbl) : Decidable (keyNodup T) := by
  unfold keyNodup
  infer_instance

/-- A child is fresh when it has its self-row and no other row of the
table mentions it. -/
def freshChild (T : Tbl) (c : Int) : Prop :=
  ({ ancestor := c, descendent := c, depth := 0 } : Row) ∈ T ∧
    ∀ r ∈ T, (r.ancestor = c ∨ r.descendent = c) →
      r = ({ ancestor := c, descendent := c, depth := 0 } : Row)

/-- The proviso of the closure invariant: each call links a distinct
parent, already present with its self-row (hence, inductively, with
its closure complete), to a fresh child. -/
def goodCalls : Tbl → List (Int × Int) → Prop
  | _, [] => True
  | T, (p, c) :: rest =>
    p ≠ c ∧ ({ ancestor := p, descendent := p, depth := 0 } : Row) ∈ T ∧
      freshChild T c ∧ goodCalls (associateAsChild T p c) rest

instance (T : Tbl) (c : Int) : Decidable (freshChild T c) := by
  unfold freshChild; infer_instance

/-- goodCalls is decidable, so witnesses can be checked by evaluation. -/
def goodCallsDec : (T : Tbl) → (calls : List (Int × Int)) → Decidable (goodCalls T calls)
  | _, [] => Decidable.isTrue trivial
  | T, (p, c) :: rest =>
    have : Decidable (goodCalls (associateAsChild T p c) rest) := goodCallsDec _ rest
    by unfold goodCalls; infer_instance

instance (T : Tbl) (calls : List (Int × Int)) : Decidable (goodCalls T calls) :=
  goodCallsDec T calls

/-- Reachability with distance along the direct parent-child edges
implied by a list of associate-as-child calls: the mathematical
transitive-reflexive closure together with path length. -/
inductive Reach (E : List (Int × Int)) : Int → Int → Int → Prop where
  | refl (a : Int) : Reach E a a 0
  | step {a b c : Int} {n : Int} : Reach E a b n → (b, c) ∈ E → Reach E a c (n + 1)

/-- Copy the listed columns from M into m, in order; used to describe
the partial mutation the require-columns stage performs before it
detects a missing column. -/
def copyCols (m : StringMap) (cols : List String) (M : StringMap) : StringMap :=
  cols.foldl
    (fun acc k =>
      match lookupKV M k with
      | some v => insertKV acc k v
      | none => acc)
    m

/-! Helper lemmas about the maps and the require-columns stage. -/

theorem lookupKV_insertKV (m : StringMap) (k : String) (v : Value) (k' : String) :
    lookupKV (insertKV m k v) k' = if k = k' then some v else lookupKV m k' := by
  induction m with
  | nil =>
    by_cases h : k = k' <;> simp [insertKV, lookupKV, h]
  | cons kv rest ih =>
    obtain ⟨k0, v0⟩ := kv
    by_cases h0 : k0 = k
    · subst h0
      by_cases h : k0 = k' <;> simp [insertKV, lookupKV, h]
    · by_cases h : k = k'
      · subst h
        simp [insertKV, lookupKV, h0, ih]
      · by_cases h1 : k0 = k'
        · subst h1
          simp [insertKV, lookupKV, h0, ih, h]
        · simp [insertKV, lookupKV, h0, h1, ih, h]

theorem ensure_fst_query (R : List String) (M : StringMap) (ctx : QueryContext) :
    (EnsureInputColsPipe R M ctx).1.query = ctx.query ∧
      (EnsureInputColsPipe R M ctx).1.args = ctx.args := by
  induction R generalizing ctx with
  | nil => simp [EnsureInputColsPipe]
  | cons col rest ih =>
    cases h : lookupKV M col with
    | none => simp [EnsureInputColsPipe, h]
    | some v => simpa [EnsureInputColsPipe, h] using ih _

theorem ensure_ok_iff (R : List String) (M : StringMap) (ctx : QueryContext) :
    (EnsureInputColsPipe R M ctx).2 = none ↔ ∀ c ∈ R, (lookupKV M c).isSome := by
  induction R generalizing ctx with
  | nil => simp [EnsureInputColsPipe]
  | cons col rest ih =>
    cases h : lookupKV M col with
    | none => simp [EnsureInputColsPipe, h]
    | some v => simp [EnsureInputColsPipe, h, ih]

theorem ensure_ok_lookup (R : List String) (M : StringMap) (ctx : QueryContext)
    (hok : (EnsureInputColsPipe R M ctx).2 = none) (k : String) :
    lookupKV (EnsureInputColsPipe R M ctx).1.nameArgs k =
      if k ∈ R then lookupKV M k else lookupKV ctx.nameArgs k := by
  induction R generalizing ctx with
  | nil => simp [EnsureInputColsPipe]
  | cons col rest ih =>
    cases h : lookupKV M col with
    | none => simp [EnsureInputColsPipe, h] at hok
    | some v =>
      rw [EnsureInputColsPipe, h] at hok ⊢
      rw [ih _ hok, lookupKV_insertKV]
      by_cases hk : k ∈ rest
      · simp [hk]
      · by_cases hc : col = k
        · subst hc; simp [hk, h]
        · simp [hk, hc, Ne.symm hc]

/-- C3: for every required-column list R and input Value Map M, the
require-columns stage succeeds iff the keys of M are a superset of R,
and on success the named-parameter map of a fresh context holds
exactly the entries for the names in R, with the values copied from M,
and nothing else. -/
theorem c3_require_columns_exact (R : List String) (M : StringMap) (q : String) :
    ((EnsureInputColsPipe R M (MakeCtxMaker q)).2 = none ↔ ∀ c ∈ R, (lookupKV M c).isSome) ∧
    ((EnsureInputColsPipe R M (MakeCtxMaker q)).2 = none →
      ∀ k, lookupKV (EnsureInputColsPipe R M (MakeCtxMaker q)).1.nameArgs k =
        if k ∈ R then lookupKV M k else none) := by
  refine ⟨ensure_ok_iff R M _, fun hok k => ?_⟩
  rw [ensure_ok_lookup R M _ hok k]
  by_cases hk : k ∈ R <;> simp [hk, MakeCtxMaker, lookupKV]

theorem c3_witness :
    lookupKV (EnsureInputColsPipe ["setting"] [("setting", Value.vStr "v")]
        (MakeCtxMaker FETCH_CONFIG_SETTING_BASE)).1.nameArgs "setting" =
      if "setting" ∈ ["setting"] then lookupKV [("setting", Value.vStr "v")] "setting" else none :=
  (c3_require_columns_exact ["setting"] [("setting", Value.vStr "v")]
      FETCH_CONFIG_SETTING_BASE).2 (by decide) "setting"

/-- C5 counterexample: with required columns a and b and an input map
holding only a, the stage fails, yet the context's named-parameter map
has already been mutated (a was copied before b was found missing), so
validation does not all happen before any copy. -/
theorem c5_counterexample :
    (EnsureInputColsPipe ["a", "b"] [("a", Value.vNum 1)] (MakeCtxMaker "Q")).2 =
        some (Err.missingColumn "b" "Q") ∧
      (EnsureInputColsPipe ["a", "b"] [("a", Value.vNum 1)] (MakeCtxMaker "Q")).1.nameArgs =
        [("a", Value.vNum 1)] ∧
      (MakeCtxMaker "Q").nameArgs = [] := by
  refine ⟨rfl, rfl, rfl⟩

/-- C5 amended: on a missing required column the stage fails with the
missing-column error carrying the first missing name and the template,
and the context's named-parameter map holds the required columns that
were validated before the missing one (validation and copying are
interleaved); no mutation happens after detection, and the query and
positional arguments are untouched. -/
theorem c5_missing_column_behaviour (R : List String) (M : StringMap) (ctx : QueryContext)
    (e : Err) (h : (EnsureInputColsPipe R M ctx).2 = some e) :
    (∃ c rest', R.dropWhile (fun x => (lookupKV M x).isSome) = c :: rest' ∧
        lookupKV M c = none ∧ c ∈ R ∧ e = Err.missingColumn c ctx.query) ∧
    (EnsureInputColsPipe R M ctx).1 =
      { ctx with nameArgs := copyCols ctx.nameArgs (R.takeWhile fun x => (lookupKV M x).isSome) M } := by
  induction R generalizing ctx with
  | nil => simp [EnsureInputColsPipe] at h
  | cons col rest ih =>
    cases hc : lookupKV M col with
    | none =>
      rw [EnsureInputColsPipe, hc] at h
      have he : e = Err.missingColumn col ctx.query := by
        simpa using h.symm
      constructor
      · exact ⟨col, rest, by simp [List.dropWhile_cons, hc], hc, by simp, he⟩
      · simp [EnsureInputColsPipe, hc, List.takeWhile_cons, copyCols]
    | some v =>
      rw [EnsureInputColsPipe, hc] at h
      obtain ⟨⟨c, rest', hdrop, hnone, hmem, he⟩, hctx⟩ := ih _ h
      constructor
      · exact ⟨c, rest', by simp [List.dropWhile_cons, hc, hdrop], hnone, by simp [hmem], he⟩
      · rw [EnsureInputColsPipe, hc, hctx]
        simp [List.takeWhile_cons, hc, copyCols]

theorem c5_witness :
    (EnsureInputColsPipe ["a", "b"] [("a", Value.vNum 1)] (MakeCtxMaker "Q")).1 =
      { MakeCtxMaker "Q" with
          nameArgs := copyCols (MakeCtxMaker "Q").nameArgs
            (["a", "b"].takeWhile fun x => (lookupKV [("a", Value.vNum 1)] x).isSome)
            [("a", Value.vNum 1)] } :=
  (c5_missing_column_behaviour ["a", "b"] [("a", Value.vNum 1)] (MakeCtxMaker "Q")
      (Err.missingColumn "b" "Q") (by decide)).2

/-! Helper lemmas about the patch-filter stage. -/

theorem patchLoop_shape (W : List String) (M : StringMap) (ctx : QueryContext)
    (frags : List String) (b : Bool) :
    (patchLoop W M ctx frags b).1.query = ctx.query ∧
    (patchLoop W M ctx frags b).1.args = ctx.args ∧
    (patchLoop W M ctx frags b).2.1 =
      frags ++ (W.filter fun c => (lookupKV M c).isSome).map (fun c => c ++ " = :" ++ c) ∧
    (patchLoop W M ctx frags b).2.2 = (b || W.any fun c => (lookupKV M c).isSome) ∧
    ∀ k, lookupKV (patchLoop W M ctx frags b).1.nameArgs k =
      if k ∈ W ∧ (lookupKV M k).isSome then lookupKV M k else lookupKV ctx.nameArgs k := by
  induction W generalizing ctx frags b with
  | nil => simp [patchLoop]
  | cons col rest ih =>
    cases hc : lookupKV M col with
    | none =>
      obtain ⟨ihq, iha, ihf, ihp, ihm⟩ := ih ctx frags b
      rw [patchLoop, hc]
      refine ⟨ihq, iha, by simp [List.filter_cons, hc, ihf], by simp [hc, ihp], fun k => ?_⟩
      rw [ihm k]
      by_cases hk : k = col
      · subst hk
        simp [hc]
      · simp [Ne.symm hk, hk]
    | some v =>
      obtain ⟨ihq, iha, ihf, ihp, ihm⟩ :=
        ih { ctx with nameArgs := insertKV ctx.nameArgs col v } (frags ++ [col ++ " = :" ++ col]) true
      rw [patchLoop, hc]
      refine ⟨ihq, iha, by simp [List.filter_cons, hc, ihf], by simp [ihp, hc], fun k => ?_⟩
      rw [ihm k]
      by_cases hk : k ∈ rest
      · by_cases hks : (lookupKV M k).isSome
        · simp [hk, hks]
        · simp [hk, hks, lookupKV_insertKV]
          intro hek
          rw [hek] at hc
          simp [hc] at hks
      · by_cases hkc : k = col
        · subst hkc
          simp [hk, hc, lookupKV_insertKV]
        · simp [hk, hkc, Ne.symm hkc, lookupKV_insertKV]

theorem PatchFilterPipe_eq (W : List String) (M : StringMap) (ctx : QueryContext) :
    PatchFilterPipe W M ctx =
      if (patchLoop W M ctx [] false).2.2 then
        Except.ok { (patchLoop W M ctx [] false).1 with
          query := substFormat (patchLoop W M ctx [] false).1.query
            (String.intercalate ", " (patchLoop W M ctx [] false).2.1) }
      else Except.error Err.nothingPatched := rfl

/-- C4: for every whitelist W and input Value Map M, the patch stage
succeeds iff some whitelisted column occurs in M; on success the
fragment list holds exactly one col-equals-colon-col entry per matched
column, in whitelist order, the named-parameter map gains exactly the
matched keys with values from M, and the comma-joined fragments are
substituted into the template's format placeholder; with no match it
fails with the nothing-patched error. -/
theorem c4_patch_filter (W : List String) (M : StringMap) (ctx : QueryContext) :
    ((∃ c ∈ W, (lookupKV M c).isSome) ↔ ∃ ctx', PatchFilterPipe W M ctx = Except.ok ctx') ∧
    ((¬ ∃ c ∈ W, (lookupKV M c).isSome) →
      PatchFilterPipe W M ctx = Except.error Err.nothingPatched) ∧
    (patchLoop W M ctx [] false).2.1 =
      (W.filter fun c => (lookupKV M c).isSome).map (fun c => c ++ " = :" ++ c) ∧
    (∀ ctx', PatchFilterPipe W M ctx = Except.ok ctx' →
      (∀ k, lookupKV ctx'.nameArgs k =
          if k ∈ W ∧ (lookupKV M k).isSome then lookupKV M k else lookupKV ctx.nameArgs k) ∧
      ctx'.query = substFormat ctx.query (String.intercalate ", "
        ((W.filter fun c => (lookupKV M c).isSome).map (fun c => c ++ " = :" ++ c))) ∧
      ctx'.args = ctx.args) := by
  obtain ⟨hq, ha, hf, hp, hm⟩ := patchLoop_shape W M ctx [] false
  rw [List.nil_append] at hf
  by_cases hany : (W.any fun c => (lookupKV M c).isSome) = true
  · have hok : PatchFilterPipe W M ctx =
        Except.ok { (patchLoop W M ctx [] false).1 with
          query := substFormat ctx.query (String.intercalate ", "
            ((W.filter fun c => (lookupKV M c).isSome).map (fun c => c ++ " = :" ++ c))) } := by
      rw [PatchFilterPipe_eq, hp, hf, hq]
      simp [hany]
    refine ⟨⟨fun _ => ⟨_, hok⟩, fun _ => List.any_eq_true.mp hany⟩, fun hno => ?_, hf, ?_⟩
    · exact absurd (List.any_eq_true.mp hany) hno
    · intro ctx' hctx'
      rw [hok] at hctx'
      cases hctx'
      exact ⟨hm, rfl, ha⟩
  · have hnone : ¬ ∃ c ∈ W, (lookupKV M c).isSome := fun hex => hany (List.any_eq_true.mpr hex)
    have hfail : PatchFilterPipe W M ctx = Except.error Err.nothingPatched := by
      rw [PatchFilterPipe_eq, hp]
      simp [Bool.eq_false_iff.mpr hany]
    refine ⟨⟨fun hex => absurd hex hnone, fun ⟨ctx', hctx'⟩ => ?_⟩, fun _ => hfail, hf, ?_⟩
    · rw [hfail] at hctx'
      cases hctx'
    · intro ctx' hctx'
      rw [hfail] at hctx'
      cases hctx'

theorem c4_witness :
    (patchLoop ["name"] [("name", Value.vStr "x")] (MakeCtxMaker UPDATE_DECK_BASE) [] false).2.1 =
      ((["name"].filter fun c => (lookupKV [("name", Value.vStr "x")] c).isSome).map
        (fun c => c ++ " = :" ++ c)) :=
  (c4_patch_filter ["name"] [("name", Value.vStr "x")] (MakeCtxMaker UPDATE_DECK_BASE)).2.2.1

theorem ensure_nameArgs_grow (R : List String) (M : StringMap) (ctx : QueryContext) (k : String)
    (h : (lookupKV ctx.nameArgs k).isSome) :
    (lookupKV (EnsureInputColsPipe R M ctx).1.nameArgs k).isSome := by
  induction R generalizing ctx with
  | nil => simpa [EnsureInputColsPipe] using h
  | cons col rest ih =>
    cases hc : lookupKV M col with
    | none => simpa [EnsureInputColsPipe, hc] using h
    | some v =>
      rw [EnsureInputColsPipe, hc]
      apply ih
      rw [lookupKV_insertKV]
      by_cases hck : col = k <;> simp [hck, h]

/-- C9: within one invocation the positional-argument list starts
empty, is preserved by the require-columns and patch stages and is
populated only by the build stage, while the named-parameter map only
ever gains entries: no stage removes one. -/
theorem c9_context_monotonicity (R W : List String) (m : StringMap) (ctx : QueryContext) :
    ((EnsureInputColsPipe R m ctx).1.args = ctx.args ∧
      ∀ k, (lookupKV ctx.nameArgs k).isSome →
        (lookupKV (EnsureInputColsPipe R m ctx).1.nameArgs k).isSome) ∧
    (∀ ctx', PatchFilterPipe W m ctx = Except.ok ctx' →
      ctx'.args = ctx.args ∧
      ∀ k, (lookupKV ctx.nameArgs k).isSome → (lookupKV ctx'.nameArgs k).isSome) ∧
    (∀ ctx', BuildQueryPipe ctx = Except.ok ctx' → ctx'.nameArgs = ctx.nameArgs) ∧
    (MakeCtxMaker ctx.query).args = [] := by
  obtain ⟨hq, ha, hf, hp, hm⟩ := patchLoop_shape W m ctx [] false
  refine ⟨⟨(ensure_fst_query R m ctx).2, fun k hk => ensure_nameArgs_grow R m ctx k hk⟩,
    ?_, ?_, rfl⟩
  · intro ctx' h
    rw [PatchFilterPipe_eq] at h
    by_cases hflag : (patchLoop W m ctx [] false).2.2 = true
    · rw [if_pos hflag] at h
      cases h
      refine ⟨ha, fun k hk => ?_⟩
      rw [hm k]
      by_cases hcond : k ∈ W ∧ (lookupKV m k).isSome
      · simp [hcond, hcond.2]
      · simp [hcond, hk]
    · rw [if_neg hflag] at h
      cases h
  · intro ctx' h
    unfold BuildQueryPipe at h
    cases h2 : sqlxNamed ctx.query ctx.nameArgs with
    | error e => rw [h2] at h; cases h
    | ok qa =>
      rw [h2] at h
      cases h
      rfl

theorem c9_witness :
    (EnsureInputColsPipe ["deck_id"] [("deck_id", Value.vNum 7)]
        (MakeCtxMaker FETCH_DECK_BASE)).1.args = (MakeCtxMaker FETCH_DECK_BASE).args ∧
    (⟨"SELECT 1", [("deck_id", Value.vNum 7)], []⟩ : QueryContext).nameArgs =
      (⟨"SELECT 1", [("deck_id", Value.vNum 7)], []⟩ : QueryContext).nameArgs :=
  ⟨(c9_context_monotonicity ["deck_id"] [] [("deck_id", Value.vNum 7)]
      (MakeCtxMaker FETCH_DECK_BASE)).1.1,
    (c9_context_monotonicity [] [] []
        (⟨"SELECT 1", [("deck_id", Value.vNum 7)], []⟩ : QueryContext)).2.2.1
      (⟨"SELECT 1", [("deck_id", Value.vNum 7)], []⟩ : QueryContext) (by rfl)⟩

/-- C6 counterexample: invoking the deck-fetch pipeline with no Value
Map at all makes the require-columns stage index an empty argument
slice: the invocation panics instead of returning the missing-column
error the claim promises. -/
theorem c6_counterexample :
    QueryApply FETCH_DECK_BASE FETCH_DECK_PIPES [] = Outcome.panicked indexOutOfRange ∧
    QueryApply FETCH_DECK_BASE FETCH_DECK_PIPES [] ≠
      Outcome.fail (Err.missingColumn "deck_id" FETCH_DECK_BASE) :=
  ⟨rfl, by decide⟩

/-- C6 amended: a stage beyond the supplied Value Maps receives an
empty argument list, not an empty map; the build stage ignores its
arguments and proceeds identically, but an input-consuming stage
(require-columns or patch-filter) panics with an index-out-of-range
runtime error rather than failing with a missing-column error. -/
theorem c6_no_map_panics (base : String) (R W : List String) (rest : List Pipe)
    (m : StringMap) :
    QueryApply base (Pipe.ensureInputCols R :: rest) [] = Outcome.panicked indexOutOfRange ∧
    QueryApply base (Pipe.patchFilter W :: rest) [] = Outcome.panicked indexOutOfRange ∧
    QueryApply base (Pipe.buildQuery :: rest) [] = QueryApply base (Pipe.buildQuery :: rest) [m] :=
  ⟨rfl, rfl, rfl⟩

theorem queryApplyLoop_take (pipes : List Pipe) :
    ∀ (maps1 maps2 : List StringMap) (ctx : QueryContext),
      maps1.take (inputStages pipes) = maps2.take (inputStages pipes) →
      queryApplyLoop pipes maps1 ctx = queryApplyLoop pipes maps2 ctx := by
  induction pipes with
  | nil => intro _ _ _ _; rfl
  | cons p rest ih =>
    intro maps1 maps2 ctx h
    cases p with
    | buildQuery => rfl
    | ensureInputCols R =>
      cases maps1 with
      | nil =>
        cases maps2 with
        | nil => rfl
        | cons m2 ms2 => simp [inputStages] at h
      | cons m1 ms1 =>
        cases maps2 with
        | nil => simp [inputStages] at h
        | cons m2 ms2 =>
          simp only [inputStages, List.take_succ_cons, List.cons.injEq] at h
          obtain ⟨rfl, htail⟩ := h
          simp only [queryApplyLoop]
          rcases hE : EnsureInputColsPipe R m1 ctx with ⟨ctx', oe⟩
          cases oe with
          | some e => rfl
          | none =>
            cases rest with
            | nil => rfl
            | cons p2 rest2 => exact ih ms1 ms2 ctx' htail
    | patchFilter W =>
      cases maps1 with
      | nil =>
        cases maps2 with
        | nil => rfl
        | cons m2 ms2 => simp [inputStages] at h
      | cons m1 ms1 =>
        cases maps2 with
        | nil => simp [inputStages] at h
        | cons m2 ms2 =>
          simp only [inputStages, List.take_succ_cons, List.cons.injEq] at h
          obtain ⟨rfl, htail⟩ := h
          simp only [queryApplyLoop]
          cases hP : PatchFilterPipe W m1 ctx with
          | error e => rfl
          | ok ctx' =>
            cases rest with
            | nil => rfl
            | cons p2 rest2 => exact ih ms1 ms2 ctx' htail

/-- C10: only the Value Maps consumed by the input-reading stages can
influence the outcome of QueryApply: two suppliances that agree on
that prefix, in particular a list with extra maps and its consumed
prefix, yield exactly the same result. -/
theorem c10_extra_maps_no_influence (base : String) (pipes : List Pipe)
    (maps1 maps2 : List StringMap)
    (h : maps1.take (inputStages pipes) = maps2.take (inputStages pipes)) :
    QueryApply base pipes maps1 = QueryApply base pipes maps2 := by
  cases pipes with
  | nil => rfl
  | cons p rest => exact queryApplyLoop_take (p :: rest) maps1 maps2 (MakeCtxMaker base) h

theorem c10_witness :
    QueryApply FETCH_DECK_BASE FETCH_DECK_PIPES
        [[("deck_id", Value.vNum 7)], [("extra", Value.vNum 1)]] =
      QueryApply FETCH_DECK_BASE FETCH_DECK_PIPES [[("deck_id", Value.vNum 7)]] :=
  c10_extra_maps_no_influence FETCH_DECK_BASE FETCH_DECK_PIPES
    [[("deck_id", Value.vNum 7)], [("extra", Value.vNum 1)]]
    [[("deck_id", Value.vNum 7)]] (by decide)

theorem bindMapArgs_err (names : List String) (m : StringMap)
    (hex : ∃ n ∈ names, lookupKV m n = none) :
    ∃ n ∈ names, lookupKV m n = none ∧
      bindMapArgs names m = Except.error (Err.bindMissingName n) := by
  induction names with
  | nil => simp at hex
  | cons n0 rest ih =>
    cases hc : lookupKV m n0 with
    | none => exact ⟨n0, by simp, hc, by simp [bindMapArgs, hc]⟩
    | some v =>
      have hex' : ∃ n ∈ rest, lookupKV m n = none := by
        obtain ⟨n, hn, hnone⟩ := hex
        rcases List.mem_cons.mp hn with hn0 | hmem
        · rw [hn0] at hnone
          rw [hnone] at hc
          cases hc
        · exact ⟨n, hmem, hnone⟩
      obtain ⟨n, hn, hnone, heq⟩ := ih hex'
      exact ⟨n, by simp [hn], hnone, by simp [bindMapArgs, hc, heq]⟩

theorem bindMapArgs_ok (names : List String) (m : StringMap)
    (hall : ∀ n ∈ names, (lookupKV m n).isSome) :
    bindMapArgs names m = Except.ok (names.map fun n => (lookupKV m n).getD Value.vNull) := by
  induction names with
  | nil => simp [bindMapArgs]
  | cons n0 rest ih =>
    have h0 := hall n0 (by simp)
    cases hc : lookupKV m n0 with
    | none => rw [hc] at h0; simp at h0
    | some v =>
      rw [bindMapArgs, hc, ih fun n hn => hall n (by simp [hn])]
      simp [hc]

/-- C7: whenever the compiled template has a named placeholder with no
entry in the named-parameter map, the build stage fails with the
missing-binding error; when every placeholder is bound it succeeds and
stores the rebound positional-placeholder query together with the
resolved values in left-to-right template order. -/
theorem c7_build_query_binding (q : String) (m : StringMap) (a : List Value)
    (rb : List Char) (names : List String)
    (hpc : compileNamed q = Except.ok (rb, names)) :
    ((∃ n ∈ names, lookupKV m n = none) →
      ∃ n ∈ names, lookupKV m n = none ∧
        BuildQueryPipe ⟨q, m, a⟩ = Except.error (Err.bindMissingName n)) ∧
    ((∀ n ∈ names, (lookupKV m n).isSome) →
      BuildQueryPipe ⟨q, m, a⟩ =
        Except.ok ⟨String.mk rb, m, names.map fun n => (lookupKV m n).getD Value.vNull⟩) := by
  constructor
  · intro hex
    obtain ⟨n, hn, hnone, heq⟩ := bindMapArgs_err names m hex
    refine ⟨n, hn, hnone, ?_⟩
    show (match sqlxNamed q m with
      | Except.error e => Except.error e
      | Except.ok (q', args) =>
        Except.ok { (⟨q, m, a⟩ : QueryContext) with query := q', args := args }) = _
    unfold sqlxNamed
    rw [hpc]
    simp [heq]
  · intro hall
    show (match sqlxNamed q m with
      | Except.error e => Except.error e
      | Except.ok (q', args) =>
        Except.ok { (⟨q, m, a⟩ : QueryContext) with query := q', args := args }) = _
    unfold sqlxNamed
    rw [hpc]
    simp [bindMapArgs_ok names m hall]

theorem c7_witness :
    BuildQueryPipe ⟨FETCH_DECK_BASE, [("deck_id", Value.vNum 7)], []⟩ =
      Except.ok ⟨String.mk "\n    SELECT deck_id, name FROM Decks WHERE deck_id = ?;\n    ".data,
        [("deck_id", Value.vNum 7)],
        ["deck_id"].map fun n => (lookupKV [("deck_id", Value.vNum 7)] n).getD Value.vNull⟩ :=
  (c7_build_query_binding FETCH_DECK_BASE [("deck_id", Value.vNum 7)] []
      "\n    SELECT deck_id, name FROM Decks WHERE deck_id = ?;\n    ".data ["deck_id"]
      (by rfl)).2 (by decide)

/-! Helper lemmas about the closure table and OR IGNORE insertion. -/

theorem hasKey_iff (T : Tbl) (a d : Int) :
    hasKey T a d = true ↔ ∃ n, ({ ancestor := a, descendent := d, depth := n } : Row) ∈ T := by
  unfold hasKey
  rw [List.any_eq_true]
  constructor
  · rintro ⟨r, hr, hmatch⟩
    rw [Bool.and_eq_true, beq_iff_eq, beq_iff_eq] at hmatch
    exact ⟨r.depth, by
      have : ({ ancestor := a, descendent := d, depth := r.depth } : Row) = r := by
        cases r
        simp_all
      rw [this]
      exact hr⟩
  · rintro ⟨n, hn⟩
    exact ⟨_, hn, by simp⟩

theorem hasKey_of_mem (T : Tbl) (r : Row) (h : r ∈ T) : hasKey T r.ancestor r.descendent = true := by
  unfold hasKey
  rw [List.any_eq_true]
  exact ⟨r, h, by simp⟩

theorem mem_insertOrIgnore_of_mem (T : Tbl) (r s : Row) (h : s ∈ T) : s ∈ insertOrIgnore T r := by
  unfold insertOrIgnore
  by_cases hk : hasKey T r.ancestor r.descendent = true <;> simp [hk, h]

theorem mem_insertOrIgnore (T : Tbl) (r s : Row) (h : s ∈ insertOrIgnore T r) :
    s ∈ T ∨ s = r := by
  unfold insertOrIgnore at h
  by_cases hk : hasKey T r.ancestor r.descendent = true
  · rw [if_pos hk] at h
    exact Or.inl h
  · rw [if_neg hk] at h
    simpa using h

theorem hasKey_insertOrIgnore_mono (T : Tbl) (r : Row) (a d : Int)
    (h : hasKey T a d = true) : hasKey (insertOrIgnore T r) a d = true := by
  unfold insertOrIgnore
  by_cases hk : hasKey T r.ancestor r.descendent = true
  · simpa [hk]
  · rw [if_neg hk]
    unfold hasKey at h ⊢
    rw [List.any_eq_true] at h
    obtain ⟨x, hx, hm⟩ := h
    exact List.any_eq_true.mpr ⟨x, by simp [hx], hm⟩

theorem hasKey_insertOrIgnore_self (T : Tbl) (r : Row) :
    hasKey (insertOrIgnore T r) r.ancestor r.descendent = true := by
  unfold insertOrIgnore
  by_cases hk : hasKey T r.ancestor r.descendent = true
  · simp [hk]
  · rw [if_neg hk]
    unfold hasKey
    rw [List.any_eq_true]
    exact ⟨r, by simp, by simp⟩

theorem mem_insertAll_of_mem (rows : List Row) (T : Tbl) (s : Row) (h : s ∈ T) :
    s ∈ insertAll T rows := by
  induction rows generalizing T with
  | nil => simpa [insertAll] using h
  | cons r rest ih =>
    unfold insertAll at ih ⊢
    exact ih _ (mem_insertOrIgnore_of_mem T r s h)

theorem mem_insertAll (rows : List Row) (T : Tbl) (s : Row) (h : s ∈ insertAll T rows) :
    s ∈ T ∨ s ∈ rows := by
  induction rows generalizing T with
  | nil => exact Or.inl (by simpa [insertAll] using h)
  | cons r rest ih =>
    unfold insertAll at h
    rcases ih _ h with hin | hin
    · rcases mem_insertOrIgnore T r s hin with h' | h'
      · exact Or.inl h'
      · exact Or.inr (by simp [h'])
    · exact Or.inr (by simp [hin])

theorem hasKey_insertAll_mono (rows : List Row) (T : Tbl) (a d : Int)
    (h : hasKey T a d = true) : hasKey (insertAll T rows) a d = true := by
  induction rows generalizing T with
  | nil => simpa [insertAll] using h
  | cons r rest ih =>
    unfold insertAll at ih ⊢
    exact ih _ (hasKey_insertOrIgnore_mono T r a d h)

theorem hasKey_insertAll_of_mem (rows : List Row) (T : Tbl) (r : Row) (h : r ∈ rows) :
    hasKey (insertAll T rows) r.ancestor r.descendent = true := by
  induction rows generalizing T with
  | nil => cases h
  | cons r0 rest ih =>
    unfold insertAll
    rcases List.mem_cons.mp h with h0 | hmem
    · rw [h0]
      exact hasKey_insertAll_mono rest _ _ _ (hasKey_insertOrIgnore_self T r0)
    · exact ih _ hmem

theorem insertAll_of_allKeys (rows : List Row) (T : Tbl)
    (h : ∀ r ∈ rows, hasKey T r.ancestor r.descendent = true) : insertAll T rows = T := by
  induction rows with
  | nil => rfl
  | cons r rest ih =>
    unfold insertAll
    have hr : insertOrIgnore T r = T := by
      unfold insertOrIgnore
      rw [if_pos (h r (by simp))]
    rw [List.foldl_cons, hr]
    exact ih fun s hs => h s (by simp [hs])

theorem mem_insertAll_of_fresh (rows : List Row) (T : Tbl) (r : Row) (hmem : r ∈ rows)
    (hfresh : hasKey T r.ancestor r.descendent = false)
    (huniq : ∀ s ∈ rows, s.ancestor = r.ancestor → s.descendent = r.descendent → s = r) :
    r ∈ insertAll T rows := by
  induction rows generalizing T with
  | nil => cases hmem
  | cons s rest ih =>
    unfold insertAll
    by_cases hks : s.ancestor = r.ancestor ∧ s.descendent = r.descendent
    · have hsr : s = r := huniq s (by simp) hks.1 hks.2
      have : insertOrIgnore T s = T ++ [s] := by
        unfold insertOrIgnore
        rw [if_neg (by rw [hsr, hfresh]; simp)]
      rw [List.foldl_cons, this, hsr]
      exact mem_insertAll_of_mem rest _ r (by simp)
    · have hrmem : r ∈ rest := by
        rcases List.mem_cons.mp hmem with h0 | h1
        · subst h0
          exact absurd ⟨rfl, rfl⟩ hks
        · exact h1
      have hf' : hasKey (insertOrIgnore T s) r.ancestor r.descendent = false := by
        unfold insertOrIgnore
        by_cases hk : hasKey T s.ancestor s.descendent = true
        · rw [if_pos hk]
          exact hfresh
        · rw [if_neg hk]
          unfold hasKey at hfresh ⊢
          rw [Bool.eq_false_iff] at hfresh ⊢
          intro hany
          rw [List.any_eq_true] at hany
          obtain ⟨x, hx, hm⟩ := hany
          rw [Bool.and_eq_true, beq_iff_eq, beq_iff_eq] at hm
          rcases List.mem_append.mp hx with hxT | hxs
          · exact hfresh (List.any_eq_true.mpr ⟨x, hxT, by simp [hm.1, hm.2]⟩)
          · have hxe : x = s := by simpa using hxs
            rw [hxe] at hm
            exact hks ⟨hm.1, hm.2⟩
      exact ih _ hrmem hf' fun t ht => huniq t (by simp [ht])

theorem mem_selectedRows (T : Tbl) (p c : Int) (r : Row) :
    r ∈ selectedRows T p c ↔
      ((∃ t ∈ T, t.descendent = p ∧
          r = { ancestor := t.ancestor, descendent := c, depth := t.depth + 1 }) ∨
        r = { ancestor := c, descendent := c, depth := 0 }) := by
  unfold selectedRows
  rw [List.mem_append]
  constructor
  · rintro (hmap | hself)
    · obtain ⟨t, htf, hft⟩ := List.mem_map.mp hmap
      obtain ⟨htT, htq⟩ := List.mem_filter.mp htf
      exact Or.inl ⟨t, htT, beq_iff_eq.mp htq, hft.symm⟩
    · exact Or.inr (by simpa using hself)
  · rintro (⟨t, htT, htd, hform⟩ | hform)
    · exact Or.inl (List.mem_map.mpr
        ⟨t, List.mem_filter.mpr ⟨htT, by rw [beq_iff_eq]; exact htd⟩, hform.symm⟩)
    · exact Or.inr (by simp [hform])

theorem selectedRows_descendent (T : Tbl) (p c : Int) (r : Row) (h : r ∈ selectedRows T p c) :
    r.descendent = c := by
  rcases (mem_selectedRows T p c r).mp h with ⟨t, _, _, hr⟩ | hr <;> rw [hr]

/-- C8: for every closure-table state and every (parent, child) pair,
running associate-as-child twice with identical arguments leaves the
table exactly as running it once: every key the second statement
selects is already present after the first, so OR IGNORE skips every
row. -/
theorem c8_associate_idempotent (T : Tbl) (p c : Int) :
    associateAsChild (associateAsChild T p c) p c = associateAsChild T p c := by
  unfold associateAsChild
  apply insertAll_of_allKeys
  intro r hr
  rcases (mem_selectedRows _ p c r).mp hr with ⟨t, htmem, htdesc, hrform⟩ | hrform
  · rcases mem_insertAll _ _ _ htmem with htT | htsel
    · have hsel : ({ ancestor := t.ancestor, descendent := c, depth := t.depth + 1 } : Row) ∈
          selectedRows T p c := by
        rw [mem_selectedRows]
        exact Or.inl ⟨t, htT, htdesc, rfl⟩
      have hk := hasKey_insertAll_of_mem _ T _ hsel
      rw [hrform]
      exact hk
    · have hdesc : t.descendent = c := selectedRows_descendent T p c t htsel
      have hk := hasKey_of_mem _ t htmem
      rw [hdesc] at hk
      rw [hrform]
      exact hk
  · have hsel : ({ ancestor := c, descendent := c, depth := 0 } : Row) ∈ selectedRows T p c := by
      rw [mem_selectedRows]
      exact Or.inr rfl
    have hk := hasKey_insertAll_of_mem _ T _ hsel
    rw [hrform]
    exact hk

/-- C2: under the schema-guaranteed table invariants (primary-key
uniqueness and the trigger-maintained self-rows), associate-as-child
preserves every existing row, inserts the edge (a, c, d+1) for every
existing edge (a, p, d) whose (a, c) key is not already present (OR
IGNORE leaves present rows unchanged), inserts the self-edge (c, c, 0)
if not already present, and inserts nothing else. -/
theorem c2_associate_inserts (T : Tbl) (p c : Int)
    (hself : selfEdgeInv T) (hk : keyNodup T) :
    (∀ r ∈ T, r ∈ associateAsChild T p c) ∧
    (∀ a d, ({ ancestor := a, descendent := p, depth := d } : Row) ∈ T →
      hasKey T a c = false →
      ({ ancestor := a, descendent := c, depth := d + 1 } : Row) ∈ associateAsChild T p c) ∧
    (hasKey T c c = false →
      ({ ancestor := c, descendent := c, depth := 0 } : Row) ∈ associateAsChild T p c) ∧
    (∀ r ∈ associateAsChild T p c, r ∈ T ∨
      (∃ a d, r = { ancestor := a, descendent := c, depth := d + 1 } ∧
        ({ ancestor := a, descendent := p, depth := d } : Row) ∈ T) ∨
      r = { ancestor := c, descendent := c, depth := 0 }) := by
  refine ⟨fun r hr => mem_insertAll_of_mem _ _ _ hr, ?_, ?_, ?_⟩
  · intro a d hmem hfresh
    unfold associateAsChild
    apply mem_insertAll_of_fresh
    · rw [mem_selectedRows]
      exact Or.inl ⟨{ ancestor := a, descendent := p, depth := d }, hmem, rfl, rfl⟩
    · exact hfresh
    · intro s hs hsa hsd
      rcases (mem_selectedRows T p c s).mp hs with ⟨t, htT, htd, hform⟩ | hform
      · have hta : t.ancestor = a := by rw [hform] at hsa; exact hsa
        have ht2 : t = ({ ancestor := a, descendent := p, depth := d } : Row) :=
          List.inj_on_of_nodup_map hk htT hmem (by simp [hta, htd])
        rw [hform, ht2]
      · exfalso
        have hac : c = a := by rw [hform] at hsa; exact hsa
        have h1 : ({ ancestor := a, descendent := a, depth := 0 } : Row) ∈ T :=
          (hself _ hmem).1
        have h2 : hasKey T a c = true := (hasKey_iff T a c).mpr ⟨0, by rw [hac]; exact h1⟩
        rw [h2] at hfresh
        cases hfresh
  · intro hfresh
    unfold associateAsChild
    apply mem_insertAll_of_fresh
    · rw [mem_selectedRows]
      exact Or.inr rfl
    · exact hfresh
    · intro s hs hsa hsd
      rcases (mem_selectedRows T p c s).mp hs with ⟨t, htT, htd, hform⟩ | hform
      · exfalso
        have hta : t.ancestor = c := by rw [hform] at hsa; exact hsa
        have h1 : ({ ancestor := t.ancestor, descendent := t.ancestor, depth := 0 } : Row) ∈ T :=
          (hself _ htT).1
        rw [hta] at h1
        have h2 : hasKey T c c = true := (hasKey_iff T c c).mpr ⟨0, h1⟩
        rw [h2] at hfresh
        cases hfresh
      · exact hform
  · intro r hr
    rcases mem_insertAll _ _ _ hr with hrT | hrsel
    · exact Or.inl hrT
    · rcases (mem_selectedRows T p c r).mp hrsel with ⟨t, htT, htd, hform⟩ | hform
      · refine Or.inr (Or.inl ⟨t.ancestor, t.depth, hform, ?_⟩)
        have heta : ({ ancestor := t.ancestor, descendent := p, depth := t.depth } : Row) = t := by
          rw [← htd]
        rw [heta]
        exact htT
      · exact Or.inr (Or.inr hform)

theorem c2_witness :
    ({ ancestor := 1, descendent := 2, depth := 1 } : Row) ∈
      associateAsChild [{ ancestor := 1, descendent := 1, depth := 0 },
        { ancestor := 2, descendent := 2, depth := 0 }] 1 2 :=
  (c2_associate_inserts [{ ancestor := 1, descendent := 1, depth := 0 },
      { ancestor := 2, descendent := 2, depth := 0 }] 1 2
      (by decide) (by decide)).2.1 1 0 (by decide) (by decide)

/-! Helper lemmas for the closure invariant. -/

theorem key_mem_map_iff (T : Tbl) (a d : Int) :
    ((a, d) ∈ T.map fun r => (r.ancestor, r.descendent)) ↔ hasKey T a d = true := by
  unfold hasKey
  rw [List.any_eq_true, List.mem_map]
  constructor
  · rintro ⟨r, hr, heq⟩
    rw [Prod.mk.injEq] at heq
    exact ⟨r, hr, by simp [heq.1, heq.2]⟩
  · rintro ⟨r, hr, hm⟩
    rw [Bool.and_eq_true, beq_iff_eq, beq_iff_eq] at hm
    exact ⟨r, hr, by simp [hm.1, hm.2]⟩

theorem keyNodup_insertOrIgnore (T : Tbl) (r : Row) (h : keyNodup T) :
    keyNodup (insertOrIgnore T r) := by
  unfold insertOrIgnore
  by_cases hk : hasKey T r.ancestor r.descendent = true
  · rw [if_pos hk]
    exact h
  · rw [if_neg hk]
    unfold keyNodup at h ⊢
    rw [List.map_append, List.nodup_append]
    refine ⟨h, by simp, ?_⟩
    intro x hx hxr
    have hxe : x = (r.ancestor, r.descendent) := by simpa using hxr
    rw [hxe, key_mem_map_iff] at hx
    exact hk hx

theorem keyNodup_insertAll (rows : List Row) (T : Tbl) (h : keyNodup T) :
    keyNodup (insertAll T rows) := by
  induction rows generalizing T with
  | nil => exact h
  | cons r rest ih =>
    unfold insertAll
    rw [List.foldl_cons]
    exact ih _ (keyNodup_insertOrIgnore T r h)

theorem reach_nil (a b : Int) (n : Int) : Reach [] a b n ↔ (b = a ∧ n = 0) := by
  constructor
  · intro h
    induction h with
    | refl => exact ⟨rfl, rfl⟩
    | step h he ih => cases he
  · rintro ⟨rfl, rfl⟩
    exact Reach.refl _

theorem reach_mono (E E' : List (Int × Int)) (hsub : ∀ e ∈ E, e ∈ E') (a b : Int) (n : Int)
    (h : Reach E a b n) : Reach E' a b n := by
  induction h with
  | refl => exact Reach.refl _
  | step h he ih => exact Reach.step ih (hsub _ he)

theorem reach_snoc (E : List (Int × Int)) (p c : Int) (hpc : p ≠ c)
    (hcE : ∀ e ∈ E, e.1 ≠ c ∧ e.2 ≠ c) (x y : Int) (m : Int) :
    Reach (E ++ [(p, c)]) x y m ↔
      (Reach E x y m ∨ (y = c ∧ ∃ d, Reach E x p d ∧ m = d + 1)) := by
  constructor
  · intro h
    induction h with
    | refl => exact Or.inl (Reach.refl _)
    | @step b y2 n h2 he ih =>
      rcases List.mem_append.mp he with heE | hep
      · rcases ih with hE2 | ⟨hbc, d, hd, hm⟩
        · exact Or.inl (Reach.step hE2 heE)
        · exact absurd hbc (hcE _ heE).1
      · have hpe : b = p ∧ y2 = c := by
          have h3 : (b, y2) = (p, c) := by simpa using hep
          exact ⟨congrArg Prod.fst h3, congrArg Prod.snd h3⟩
        rcases ih with hE2 | ⟨hbc, d, hd, hm⟩
        · refine Or.inr ⟨hpe.2, n, ?_, rfl⟩
          rw [← hpe.1]
          exact hE2
        · exfalso
          apply hpc
          rw [← hpe.1]
          exact hbc
  · rintro (hE2 | ⟨rfl, d, hd, rfl⟩)
    · exact reach_mono E _ (fun e he => List.mem_append.mpr (Or.inl he)) _ _ _ hE2
    · exact Reach.step
        (reach_mono E _ (fun e he => List.mem_append.mpr (Or.inl he)) _ _ _ hd)
        (List.mem_append.mpr (Or.inr (by simp)))

theorem closure_step (D : List Int) (E : List (Int × Int)) (T : Tbl) (p c : Int)
    (hk : keyNodup T)
    (hE : ∀ e ∈ E, e.1 ∈ D ∧ e.2 ∈ D)
    (hInv : ∀ a b n, ({ ancestor := a, descendent := b, depth := n } : Row) ∈ T ↔
      (a ∈ D ∧ b ∈ D ∧ Reach E a b n))
    (hpc : p ≠ c)
    (hp : ({ ancestor := p, descendent := p, depth := 0 } : Row) ∈ T)
    (hfr : freshChild T c) :
    keyNodup (associateAsChild T p c) ∧
    (∀ e ∈ E ++ [(p, c)], e.1 ∈ D ∧ e.2 ∈ D) ∧
    (∀ a b n, ({ ancestor := a, descendent := b, depth := n } : Row) ∈ associateAsChild T p c ↔
      (a ∈ D ∧ b ∈ D ∧ Reach (E ++ [(p, c)]) a b n)) := by
  have hcD : c ∈ D := ((hInv c c 0).mp hfr.1).1
  have hpD : p ∈ D := ((hInv p p 0).mp hp).1
  have hone : (1 : Int) ≠ 0 := by norm_num
  have hcE : ∀ e ∈ E, e.1 ≠ c ∧ e.2 ≠ c := by
    intro e heE
    obtain ⟨h1D, h2D⟩ := hE e heE
    have hreach : Reach E e.1 e.2 1 := by
      have h0 := Reach.step (Reach.refl e.1) (show (e.1, e.2) ∈ E from heE)
      rw [zero_add] at h0
      exact h0
    have hrow : ({ ancestor := e.1, descendent := e.2, depth := 1 } : Row) ∈ T :=
      (hInv e.1 e.2 1).mpr ⟨h1D, h2D, hreach⟩
    constructor
    · intro h1c
      have heq := hfr.2 _ hrow (Or.inl h1c)
      exact hone (congrArg Row.depth heq)
    · intro h2c
      have heq := hfr.2 _ hrow (Or.inr h2c)
      exact hone (congrArg Row.depth heq)
  have hkey_false : ∀ a d, ({ ancestor := a, descendent := p, depth := d } : Row) ∈ T →
      hasKey T a c = false := by
    intro a d hmem
    by_contra hkey
    rw [Bool.not_eq_false] at hkey
    obtain ⟨m, hrow⟩ := (hasKey_iff T a c).mp hkey
    have heq := hfr.2 _ hrow (Or.inr rfl)
    have hac : a = c := congrArg Row.ancestor heq
    rw [hac] at hmem
    have heq2 := hfr.2 _ hmem (Or.inl rfl)
    exact hpc (congrArg Row.descendent heq2)
  have hnew : ∀ a d, ({ ancestor := a, descendent := p, depth := d } : Row) ∈ T →
      ({ ancestor := a, descendent := c, depth := d + 1 } : Row) ∈ associateAsChild T p c := by
    intro a d hmem
    unfold associateAsChild
    apply mem_insertAll_of_fresh
    · rw [mem_selectedRows]
      exact Or.inl ⟨_, hmem, rfl, rfl⟩
    · exact hkey_false a d hmem
    · intro s hs hsa hsd
      rcases (mem_selectedRows T p c s).mp hs with ⟨t, htT, htd, hform⟩ | hform
      · have hta : t.ancestor = a := by rw [hform] at hsa; exact hsa
        have ht2 : t = ({ ancestor := a, descendent := p, depth := d } : Row) :=
          List.inj_on_of_nodup_map hk htT hmem (by simp [hta, htd])
        rw [hform, ht2]
      · exfalso
        have hca : c = a := by rw [hform] at hsa; exact hsa
        rw [← hca] at hmem
        have heq2 := hfr.2 _ hmem (Or.inl rfl)
        exact hpc (congrArg Row.descendent heq2)
  refine ⟨keyNodup_insertAll _ _ hk, ?_, ?_⟩
  · intro e he
    rcases List.mem_append.mp he with heE | hep
    · exact hE e heE
    · have he2 : e = (p, c) := by simpa using hep
      rw [he2]
      exact ⟨hpD, hcD⟩
  · intro a b n
    rw [reach_snoc E p c hpc hcE a b n]
    constructor
    · intro hmemT2
      rcases mem_insertAll _ _ _ hmemT2 with hT | hsel
      · obtain ⟨haD, hbD, hr⟩ := (hInv a b n).mp hT
        exact ⟨haD, hbD, Or.inl hr⟩
      · rcases (mem_selectedRows T p c _).mp hsel with ⟨t, htT, htd, hform⟩ | hform
        · have ha : a = t.ancestor := congrArg Row.ancestor hform
          have hb : b = c := congrArg Row.descendent hform
          have hn : n = t.depth + 1 := congrArg Row.depth hform
          have htrow : ({ ancestor := t.ancestor, descendent := p, depth := t.depth } : Row) ∈ T := by
            have heta : ({ ancestor := t.ancestor, descendent := p, depth := t.depth } : Row) = t := by
              rw [← htd]
            rw [heta]
            exact htT
          obtain ⟨htaD, _, hreach⟩ := (hInv t.ancestor p t.depth).mp htrow
          rw [ha, hb, hn]
          exact ⟨htaD, hcD, Or.inr ⟨rfl, t.depth, hreach, rfl⟩⟩
        · have ha : a = c := congrArg Row.ancestor hform
          have hb : b = c := congrArg Row.descendent hform
          have hn : n = 0 := congrArg Row.depth hform
          rw [ha, hb, hn]
          exact ⟨hcD, hcD, Or.inl (Reach.refl _)⟩
    · rintro ⟨haD, hbD, hr | ⟨rfl, d, hd, rfl⟩⟩
      · exact mem_insertAll_of_mem _ _ _ ((hInv a b n).mpr ⟨haD, hbD, hr⟩)
      · exact hnew a d ((hInv a p d).mpr ⟨haD, hpD, hd⟩)

theorem closure_invariant_aux (D : List Int) (calls : List (Int × Int)) :
    ∀ (T : Tbl) (E : List (Int × Int)),
      keyNodup T →
      (∀ e ∈ E, e.1 ∈ D ∧ e.2 ∈ D) →
      (∀ a b n, ({ ancestor := a, descendent := b, depth := n } : Row) ∈ T ↔
        (a ∈ D ∧ b ∈ D ∧ Reach E a b n)) →
      goodCalls T calls →
      ∀ a b n, ({ ancestor := a, descendent := b, depth := n } : Row) ∈ applyCalls T calls ↔
        (a ∈ D ∧ b ∈ D ∧ Reach (E ++ calls) a b n) := by
  induction calls with
  | nil =>
    intro T E hk hE hInv hg a b n
    simpa using hInv a b n
  | cons pc rest ih =>
    obtain ⟨p, c⟩ := pc
    intro T E hk hE hInv hg
    obtain ⟨hpc, hp, hfr, hg2⟩ := hg
    obtain ⟨hk2, hE2, hInv2⟩ := closure_step D E T p c hk hE hInv hpc hp hfr
    intro a b n
    have happ : applyCalls T ((p, c) :: rest) = applyCalls (associateAsChild T p c) rest := rfl
    rw [happ, ih (associateAsChild T p c) (E ++ [(p, c)]) hk2 hE2 hInv2 hg2 a b n,
      List.append_assoc, List.singleton_append]

theorem init_keyNodup (D : List Int) (hD : D.Nodup) : keyNodup (initTable D) := by
  unfold keyNodup initTable
  rw [List.map_map]
  exact hD.map fun x y hxy => congrArg Prod.fst hxy

theorem init_inv (D : List Int) :
    ∀ a b n, ({ ancestor := a, descendent := b, depth := n } : Row) ∈ initTable D ↔
      (a ∈ D ∧ b ∈ D ∧ Reach [] a b n) := by
  intro a b n
  unfold initTable
  rw [List.mem_map]
  constructor
  · rintro ⟨d, hd, heq⟩
    have h1 : d = a := congrArg Row.ancestor heq
    have h2 : d = b := congrArg Row.descendent heq
    have h3 : (0 : Int) = n := congrArg Row.depth heq
    rw [h1] at h2 hd
    refine ⟨hd, by rw [← h2]; exact hd, ?_⟩
    rw [reach_nil]
    exact ⟨h2.symm, h3.symm⟩
  · rintro ⟨ha, hb, hr⟩
    obtain ⟨hba, hn0⟩ := (reach_nil a b n).mp hr
    exact ⟨a, ha, by rw [hba, hn0]⟩

theorem assoc_triple (A B C : Int) (hAB : A ≠ B) (hAC : A ≠ C) (hBC : B ≠ C) :
    associateAsChild (initTable [A, B, C]) A B =
      [{ ancestor := A, descendent := A, depth := 0 },
       { ancestor := B, descendent := B, depth := 0 },
       { ancestor := C, descendent := C, depth := 0 },
       { ancestor := A, descendent := B, depth := 1 }] := by
  simp [associateAsChild, selectedRows, insertAll, insertOrIgnore, hasKey, initTable,
    hAB, hAC, hBC, Ne.symm hAB, Ne.symm hAC, Ne.symm hBC]

theorem goodCalls_triple (A B C : Int) (hAB : A ≠ B) (hAC : A ≠ C) (hBC : B ≠ C) :
    goodCalls (initTable [A, B, C]) [(A, B), (B, C)] := by
  refine ⟨hAB, by simp [initTable], ⟨by simp [initTable], ?_⟩, ?_⟩
  · intro r hr hm
    simp [initTable] at hr
    rcases hr with rfl | rfl | rfl
    · simp at hm
      exact absurd hm hAB
    · rfl
    · simp at hm
      exact absurd hm (Ne.symm hBC)
  · rw [assoc_triple A B C hAB hAC hBC]
    refine ⟨hBC, by simp, ⟨by simp, ?_⟩, trivial⟩
    intro r hr hm
    simp at hr
    rcases hr with rfl | rfl | rfl | rfl
    · simp at hm
      exact absurd hm hAC
    · simp at hm
      exact absurd hm hBC
    · rfl
    · simp at hm
      rcases hm with hm | hm
      · exact absurd hm hAC
      · exact absurd hm hBC

/-- C1: for creation-then-association sequences in which every call
links a distinct parent, already present with its closure complete, to
a fresh child, the closure table equals the mathematical transitive
closure with depth of the direct edges implied by the calls; in
particular, after associate-as-child(A, B) followed by
associate-as-child(B, C) on freshly created decks, the table contains
the edge (A, C, 2). -/
theorem c1_closure_invariant :
    (∀ (D : List Int) (calls : List (Int × Int)), D.Nodup →
      goodCalls (initTable D) calls →
      ∀ a b n, ({ ancestor := a, descendent := b, depth := n } : Row) ∈
          applyCalls (initTable D) calls ↔ (a ∈ D ∧ b ∈ D ∧ Reach calls a b n)) ∧
    (∀ A B C : Int, A ≠ B → A ≠ C → B ≠ C →
      ({ ancestor := A, descendent := C, depth := 2 } : Row) ∈
        applyCalls (initTable [A, B, C]) [(A, B), (B, C)]) := by
  have main : ∀ (D : List Int) (calls : List (Int × Int)), D.Nodup →
      goodCalls (initTable D) calls →
      ∀ a b n, ({ ancestor := a, descendent := b, depth := n } : Row) ∈
        applyCalls (initTable D) calls ↔ (a ∈ D ∧ b ∈ D ∧ Reach calls a b n) := by
    intro D calls hD hg a b n
    have h := closure_invariant_aux D calls (initTable D) [] (init_keyNodup D hD)
      (by simp) (init_inv D) hg a b n
    simpa using h
  refine ⟨main, ?_⟩
  intro A B C hAB hAC hBC
  have hD : ([A, B, C] : List Int).Nodup := by simp [hAB, hAC, hBC]
  have hg := goodCalls_triple A B C hAB hAC hBC
  rw [main [A, B, C] [(A, B), (B, C)] hD hg A C 2]
  refine ⟨by simp, by simp, ?_⟩
  have r1 : Reach [(A, B), (B, C)] A B (0 + 1) :=
    Reach.step (Reach.refl A) (by simp)
  have r2 : Reach [(A, B), (B, C)] A C (0 + 1 + 1) :=
    Reach.step r1 (by simp)
  have h2 : (0 : Int) + 1 + 1 = 2 := by norm_num
  rw [← h2]
  exact r2

theorem c1_witness :
    ({ ancestor := 1, descendent := 3, depth := 2 } : Row) ∈
      applyCalls (initTable [1, 2, 3]) [(1, 2), (2, 3)] :=
  c1_closure_invariant.2 1 2 3 (by decide) (by decide) (by decide)
